import Mathlib

/-!
# Apple Encrypted Archive (AEA) metadata parser and key resolver

A shallow embedding of `pkg/aea/aea.go`:

* `Info`, the header and metadata parser, together with the parts of the Go
  standard library it runs on (`os.File.Read`, `os.File.ReadAt`,
  `io.SectionReader.Read`, `io.ReadFull`, `binary.Read`, `bytes.Cut`);
* `Metadata.GetPrivateKey`, the key resolver, over a `World` that supplies the
  embedded key data, the URL parser and the HTTP transport;
* `PrivateKey.UnmarshalBinaryPrivateKey`, over a `Crypto` record that
  supplies `pem.Decode` and `x509.ParsePKCS8PrivateKey`.

A file is the finite sequence of its bytes; a Go `string` is a sequence of
bytes as well.  A `uint32` is a natural number kept below `2 ^ 32`.
-/

namespace AEA

/-! ## Data model -/

abbrev Byte := Fin 256

/-- Go errors that the embedded code can return. -/
inductive Error
  /-- Value `io.EOF`. -/
  | EOF
  /-- Value `io.ErrUnexpectedEOF`. -/
  | ErrUnexpectedEOF
  /-- Failure of `os.Open`. -/
  | openFailed
  /-- Message "invalid AEA header: found '%s' expected 'AEA1'". -/
  | invalidHeader (found : List Byte)
  /-- Message "fcs-key-url key NOT found". -/
  | keyURLNotFound
  /-- Message "failed to parse p8 key: %v". -/
  | parseP8
  /-- Message "key must be of type ecdsa.PrivateKey". -/
  | notECDSA
  /-- Message "failed unmarshaling ipsw_db data: %w". -/
  | unmarshalDB
  /-- Any other error of a library call, told apart by a code. -/
  | other (code : Nat)
  deriving DecidableEq, Repr

instance {ε α : Type} [DecidableEq ε] [DecidableEq α] : DecidableEq (Except ε α)
  | Except.ok a, Except.ok b =>
    if h : a = b then isTrue (by rw [h]) else isFalse (fun h' => h (Except.ok.inj h'))
  | Except.error a, Except.error b =>
    if h : a = b then isTrue (by rw [h]) else isFalse (fun h' => h (Except.error.inj h'))
  | Except.ok _, Except.error _ => isFalse (fun h => by cases h)
  | Except.error _, Except.ok _ => isFalse (fun h => by cases h)

/-- Header of the container: `Magic [4]byte`, `Version uint32`, `Length uint32`. -/
structure Header where
  Magic : List Byte
  Version : Nat
  Length : Nat
  deriving DecidableEq, Repr

/-- Type `Metadata map[string][]byte`, kept as an association list with one
pair per key.  The order of the pairs is the order of first insertion; Go
gives a map no order, so statements about a map go through `Metadata.get`. -/
abbrev Metadata := List (List Byte × List Byte)

/-- Assignment `md[k] = v`. -/
def Metadata.set : Metadata → List Byte → List Byte → Metadata
  | [], k, v => [(k, v)]
  | (k', v') :: rest, k, v =>
    if k' = k then (k', v) :: rest else (k', v') :: Metadata.set rest k v

/-- Lookup `md[k]` with its `ok` flag. -/
def Metadata.get : Metadata → List Byte → Option (List Byte)
  | [], _ => none
  | (k', v') :: rest, k => if k' = k then some v' else Metadata.get rest k

/-- Bytes of an ASCII text. -/
def ascii (s : String) : List Byte :=
  s.toList.map (fun c => Fin.ofNat c.toNat)

/-- The literal "AEA1". -/
def magicAEA1 : List Byte := [0x41, 0x45, 0x41, 0x31]

/-! ## Little-endian `uint32` -/

/-- Function `binary.LittleEndian.Uint32`. -/
def leUint32 : List Byte → Nat
  | [b0, b1, b2, b3] => b0.val + 256 * b1.val + 65536 * b2.val + 16777216 * b3.val
  | _ => 0

/-- Function `binary.LittleEndian.PutUint32` on a value below `2 ^ 32`. -/
def putUint32 (n : Nat) : List Byte :=
  [Fin.ofNat n, Fin.ofNat (n / 256), Fin.ofNat (n / 65536), Fin.ofNat (n / 16777216)]

/-! ## Readers -/

/-- An open `*os.File` on a regular file: its bytes and the read position. -/
structure OSFile where
  data : List Byte
  pos : Nat
  deriving DecidableEq, Repr

/-- Method `(*os.File).Read`: the bytes at the position, at most `len` of
them; `io.EOF` when a non-empty buffer receives nothing. -/
def OSFile.Read (f : OSFile) (len : Nat) : List Byte × Option Error × OSFile :=
  let got := (f.data.drop f.pos).take len
  if got.length = 0 ∧ 0 < len then ([], some Error.EOF, f)
  else (got, none, { f with pos := f.pos + got.length })

/-- Method `(*os.File).ReadAt`: it fills the buffer from offset `off` and
reports `io.EOF` when the file ends before the buffer is full. -/
def readAt (data : List Byte) (len off : Nat) : List Byte × Option Error :=
  let got := (data.drop off).take len
  (got, if got.length < len then some Error.EOF else none)

/-- Type `io.SectionReader` over an `os.File`. -/
structure SectionReader where
  r : List Byte
  base : Nat
  off : Nat
  limit : Nat
  deriving DecidableEq, Repr

/-- Function `io.NewSectionReader(r, off, n)`. -/
def NewSectionReader (r : List Byte) (off n : Nat) : SectionReader :=
  { r := r, base := off, off := off, limit := off + n }

/-- Method `(*io.SectionReader).Read` on a buffer of `len` bytes: `io.EOF`
at the limit, otherwise the buffer is cut to the bytes left before the limit
and handed to `ReadAt`. -/
def SectionReader.Read (s : SectionReader) (len : Nat) :
    List Byte × Option Error × SectionReader :=
  if s.limit ≤ s.off then ([], some Error.EOF, s)
  else
    let len' := min len (s.limit - s.off)
    let res := readAt s.r len' s.off
    (res.1, res.2, { s with off := s.off + res.1.length })

/-- End of `io.ReadAtLeast`: with `min` bytes the error is dropped, with
some bytes `io.EOF` becomes `io.ErrUnexpectedEOF`. -/
def readFullFinish (min : Nat) (acc : List Byte) (err : Option Error) :
    List Byte × Option Error :=
  if min ≤ acc.length then (acc, none)
  else if 0 < acc.length ∧ err = some Error.EOF then (acc, some Error.ErrUnexpectedEOF)
  else (acc, err)

/-- Loop of `io.ReadFull(r, buf)` with `len(buf) = min`:
`for n < min && err == nil { nn, err = r.Read(buf[n:]); n += nn }`.
The result is `none` when the fuel ends first. -/
def readFullLoop {σ : Type} (rd : σ → Nat → List Byte × Option Error × σ) :
    Nat → Nat → σ → List Byte → Option ((List Byte × Option Error) × σ)
  | 0, _, _, _ => none
  | fuel + 1, min, s, acc =>
    if acc.length < min then
      match rd s (min - acc.length) with
      | (got, none, s') => readFullLoop rd fuel min s' (acc ++ got)
      | (got, some e, s') => some (readFullFinish min (acc ++ got) (some e), s')
    else some (readFullFinish min acc none, s)

/-- Function `io.ReadFull`. -/
def ReadFull {σ : Type} (rd : σ → Nat → List Byte × Option Error × σ) (min : Nat) (s : σ) :
    Option ((List Byte × Option Error) × σ) :=
  readFullLoop rd (min + 1) min s []

/-- Call `binary.Read(f, binary.LittleEndian, &hdr)` on the opened file. -/
def binaryReadHeader (f : OSFile) : Option (Except Error Header × OSFile) :=
  match ReadFull OSFile.Read 12 f with
  | none => none
  | some ((_, some e), f') => some (Except.error e, f')
  | some ((bs, none), f') =>
    some (Except.ok { Magic := bs.take 4,
                      Version := leUint32 ((bs.drop 4).take 4),
                      Length := leUint32 ((bs.drop 8).take 4) }, f')

/-- Call `binary.Read(mdr, binary.LittleEndian, &length)` with `length` a `uint32`. -/
def binaryReadUint32 (mdr : SectionReader) : Option (Except Error Nat × SectionReader) :=
  match ReadFull SectionReader.Read 4 mdr with
  | none => none
  | some ((_, some e), mdr') => some (Except.error e, mdr')
  | some ((bs, none), mdr') => some (Except.ok (leUint32 bs), mdr')

/-- Function `bytes.Cut(s, []byte{sep})` for a one-byte separator. -/
def Cut : List Byte → Byte → List Byte × List Byte
  | [], _ => ([], [])
  | b :: rest, sep =>
    if b = sep then ([], rest) else ((Cut rest sep).1.cons b, (Cut rest sep).2)

/-! ## `Info` -/

/-- Expression `length - uint32(binary.Size(length))` on a `uint32`: the
difference modulo `2 ^ 32`, so that a `length` below 4 wraps around. -/
def keyvalLen (length : Nat) : Nat :=
  if 4 ≤ length then length - 4 else length + 4294967292

/-- The `for` loop of `Info` that parses the key-value pairs.  The result is
`none` when the fuel ends first. -/
def parseLoop : Nat → SectionReader → Metadata → Option (Except Error Metadata)
  | 0, _, _ => none
  | fuel + 1, mdr, metadata =>
    match binaryReadUint32 mdr with
    | none => none
    | some (Except.error e, _) =>
      if e = Error.EOF then some (Except.ok metadata) else some (Except.error e)
    | some (Except.ok length, mdr1) =>
      match mdr1.Read (keyvalLen length) with
      | (_, some e, _) =>
        if e = Error.EOF then some (Except.ok metadata) else some (Except.error e)
      | (got, none, mdr2) =>
        let keyval := got ++ List.replicate (keyvalLen length - got.length) (0 : Byte)
        let kv := Cut keyval 0
        parseLoop fuel mdr2 (Metadata.set metadata kv.1 kv.2)

/-- Function `Info`, given the outcome of `os.Open(in)`: the bytes of the
file, or the error.  The loop gets one unit of fuel for every byte that the
metadata region can hold, and one more. -/
def Info (opened : Except Error (List Byte)) : Option (Except Error Metadata) :=
  match opened with
  | Except.error e => some (Except.error e)
  | Except.ok file =>
    match binaryReadHeader { data := file, pos := 0 } with
    | none => none
    | some (Except.error e, _) => some (Except.error e)
    | some (Except.ok hdr, _) =>
      if hdr.Magic ≠ magicAEA1 then some (Except.error (Error.invalidHeader hdr.Magic))
      else parseLoop (hdr.Length + 1) (NewSectionReader file 12 hdr.Length) []

/-! ## The container format -/

/-- One metadata entry on disk: `uint32` total length, key, `0x00`, value. -/
def serialiseEntry (e : List Byte × List Byte) : List Byte :=
  putUint32 (4 + e.1.length + 1 + e.2.length) ++ e.1 ++ [0] ++ e.2

/-- The metadata region that holds the entries in order. -/
def serialise : List (List Byte × List Byte) → List Byte
  | [] => []
  | e :: rest => serialiseEntry e ++ serialise rest

/-- The 12-byte header. -/
def headerBytes (magic : List Byte) (version length : Nat) : List Byte :=
  magic ++ putUint32 version ++ putUint32 length

/-! ## The loop of `Info` over the bytes that the section reader can deliver -/

/-- Bytes that the section reader can still deliver: those of the file from
the offset on, up to the limit. -/
def SectionReader.avail (s : SectionReader) : List Byte :=
  (s.r.drop s.off).take (s.limit - s.off)

/-- The loop of `parseLoop`, restated over the deliverable bytes `A` and the
room `room` left before the limit of the section. -/
def scan : Nat → List Byte → Nat → Metadata → Option (Except Error Metadata)
  | 0, _, _, _ => none
  | fuel + 1, A, room, md =>
    if A.length = 0 then some (Except.ok md)
    else if A.length < 4 then some (Except.error Error.ErrUnexpectedEOF)
    else
      let p := keyvalLen (leUint32 (A.take 4))
      let rest := A.drop 4
      if room ≤ 4 then some (Except.ok md)
      else if rest.length < min p (room - 4) then some (Except.ok md)
      else
        let got := rest.take p
        let kv := Cut (got ++ List.replicate (p - got.length) (0 : Byte)) 0
        scan fuel (rest.drop got.length) (room - 4 - got.length) (Metadata.set md kv.1 kv.2)

/-! ## Specification-side notions -/

/-- Field `Length` of the header of a file. -/
def hdrLength (file : List Byte) : Nat := leUint32 ((file.drop 8).take 4)

/-- The bytes of the metadata region that the file holds: the first
`hdr.Length` bytes after the header, cut short by the end of the file. -/
def region (file : List Byte) : List Byte := (file.drop 12).take (hdrLength file)

/-- A region in which, read entry by entry, a length field is expected at a
point where between 1 and 3 bytes remain: either the region itself has 1 to
3 bytes, or it starts with an entry that it holds whole (4 bytes of length
and the `length - 4` payload bytes, the subtraction in `uint32`) and the
bytes after that entry are such a region. -/
inductive ShortField : List Byte → Prop
  | here {A : List Byte} : 0 < A.length → A.length < 4 → ShortField A
  | skip {A : List Byte} (p : Nat) : 4 ≤ A.length →
      p = keyvalLen (leUint32 (A.take 4)) → 4 + p ≤ A.length →
      ShortField (A.drop (4 + p)) → ShortField A

/-- Value of the last entry with key `k` in a list of entries. -/
def lastOccurrence : List (List Byte × List Byte) → List Byte → Option (List Byte)
  | [], _ => none
  | e :: rest, k =>
    match lastOccurrence rest k with
    | some v => some v
    | none => if e.1 = k then some e.2 else none

/-! ## Key resolver -/

abbrev PrivateKey := List Byte

/-- Type `Keys map[string][]byte`; the pairs stand in the order in which a
`range` over the map visits them, an order that Go leaves open. -/
abbrev Keys := List (List Byte × List Byte)

/-- The part of `*url.URL` that the code reads. -/
structure URL where
  Path : List Byte
  deriving DecidableEq, Repr

/-- The part of `*http.Response` that matters: the status code, and the
outcome of `io.ReadAll(resp.Body)`. -/
structure Response where
  StatusCode : Nat
  Body : Except Error (List Byte)

/-- What the resolver takes from outside `aea.go`: the embedded file
`data/fcs-keys.gz`, the library functions `gzip.NewReader`, `json.Decode`,
`url.Parse` and `strings.EqualFold`, and the HTTP transport behind `http.Get`. -/
structure Env where
  keyData : List Byte
  gzipNewReader : List Byte → Except Error (List Byte)
  jsonDecode : List Byte → Except Error Keys
  urlParse : List Byte → Except Error URL
  EqualFold : List Byte → List Byte → Bool
  httpGet : List Byte → Except Error Response

/-- Effects of the resolver on the outside. -/
inductive Event
  /-- The key database was loaded (`getKeys`). -/
  | getKeys
  /-- An HTTP GET was sent to the URL. -/
  | httpGet (url : List Byte)
  deriving DecidableEq, Repr

/-- Function `getKeys`. -/
def getKeys (w : Env) : Except Error Keys :=
  match w.gzipNewReader w.keyData with
  | Except.error e => Except.error e
  | Except.ok zr =>
    match w.jsonDecode zr with
    | Except.error _ => Except.error Error.unmarshalDB
    | Except.ok keys => Except.ok keys

/-- Function `path.Base` of the Go library: "." for the empty path, trailing
slashes stripped, then the part after the last slash, "/" when nothing is left. -/
def pathBase (p : List Byte) : List Byte :=
  if p = [] then [0x2e]
  else
    let stripped := (p.reverse.dropWhile (fun b => b = 0x2f)).reverse
    let last := (stripped.reverse.takeWhile (fun b => b ≠ 0x2f)).reverse
    if last = [] then [0x2f] else last

/-- The key "com.apple.wkms.fcs-key-url". -/
def fcsKeyURL : List Byte := ascii "com.apple.wkms.fcs-key-url"

/-- The loop `for k, v := range keys` of `GetPrivateKey`: the first pair
visited whose key folds to `base`. -/
def rangeKeys (fold : List Byte → List Byte → Bool) (base : List Byte) :
    Keys → Option (List Byte × List Byte)
  | [] => none
  | (k, v) :: rest => if fold k base then some (k, v) else rangeKeys fold base rest

/-- Method `Metadata.GetPrivateKey`, with the effects it has on the way. -/
def Metadata.GetPrivateKey (w : Env) (md : Metadata) (data : List Byte) :
    Except Error (List (List Byte × PrivateKey)) × List Event :=
  if 0 < data.length then (Except.ok [(fcsKeyURL, data)], [])
  else
    match Metadata.get md fcsKeyURL with
    | none => (Except.error Error.keyURLNotFound, [])
    | some privKeyURL =>
      let remote : Except Error (List (List Byte × PrivateKey)) × List Event :=
        match w.httpGet privKeyURL with
        | Except.error e => (Except.error e, [Event.getKeys, Event.httpGet privKeyURL])
        | Except.ok resp =>
          match resp.Body with
          | Except.error e => (Except.error e, [Event.getKeys, Event.httpGet privKeyURL])
          | Except.ok privKey =>
            match w.urlParse privKeyURL with
            | Except.error e => (Except.error e, [Event.getKeys, Event.httpGet privKeyURL])
            | Except.ok u =>
              (Except.ok [(pathBase u.Path, privKey)], [Event.getKeys, Event.httpGet privKeyURL])
      match getKeys w with
      | Except.error _ => remote
      | Except.ok keys =>
        match w.urlParse privKeyURL with
        | Except.error e => (Except.error e, [Event.getKeys])
        | Except.ok u =>
          match rangeKeys w.EqualFold (pathBase u.Path) keys with
          | some (k, v) => (Except.ok [(k, v)], [Event.getKeys])
          | none => remote

/-! ## Private key decoding -/

/-- Curves of the keys that `x509.ParsePKCS8PrivateKey` returns as
`*ecdsa.PrivateKey`. -/
inductive Curve
  | P224 | P256 | P384 | P521
  deriving DecidableEq, Repr

/-- Values of `x509.ParsePKCS8PrivateKey`: `*rsa.PrivateKey`,
`*ecdsa.PrivateKey` with its curve and its scalar `D`, `ed25519.PrivateKey`,
`*ecdh.PrivateKey`. -/
inductive ParsedKey
  | rsa
  | ecdsa (curve : Curve) (D : Nat)
  | ed25519
  | ecdh
  deriving DecidableEq, Repr

/-- The library functions under `UnmarshalBinaryPrivateKey`: `pem.Decode`,
as the field `Bytes` of the block found or `none` for a nil block, and
`x509.ParsePKCS8PrivateKey`. -/
structure Crypto where
  pemDecode : List Byte → Option (List Byte)
  parsePKCS8PrivateKey : List Byte → Except Error ParsedKey

/-- How a Go call ends: with a value, with an error, or with a run-time panic. -/
inductive Outcome (α : Type)
  | ok (a : α)
  | error (e : Error)
  | panic
  deriving DecidableEq, Repr

/-- Digits of `n` in base 256, most significant first, onto `acc`. -/
def bigIntBytesAux : Nat → Nat → List Byte → List Byte
  | 0, _, acc => acc
  | fuel + 1, n, acc =>
    if n = 0 then acc else bigIntBytesAux fuel (n / 256) (Fin.ofNat n :: acc)

/-- Method `(*big.Int).Bytes`: the big-endian bytes of the absolute value,
with no leading zero byte. -/
def bigIntBytes (n : Nat) : List Byte := bigIntBytesAux n n []

/-- Method `PrivateKey.UnmarshalBinaryPrivateKey`.  `block.Bytes` on the nil
block of a material without PEM block is a nil pointer dereference. -/
def PrivateKey.UnmarshalBinaryPrivateKey (c : Crypto) (k : PrivateKey) : Outcome (List Byte) :=
  match c.pemDecode k with
  | none => Outcome.panic
  | some bytes =>
    match c.parsePKCS8PrivateKey bytes with
    | Except.error _ => Outcome.error Error.parseP8
    | Except.ok (ParsedKey.ecdsa _ D) => Outcome.ok (bigIntBytes D)
    | Except.ok _ => Outcome.error Error.notECDSA

/-! ## Sample surroundings for concrete runs -/

/-- ASCII lower case of a byte. -/
def asciiLower (b : Byte) : Byte :=
  if 0x41 ≤ b.val ∧ b.val ≤ 0x5a then Fin.ofNat (b.val + 32) else b

/-- Case folding of `strings.EqualFold` on ASCII texts. -/
def asciiEqualFold (a b : List Byte) : Bool :=
  decide (a.map asciiLower = b.map asciiLower)

/-- Parsing of a URL of the shape "https://host/path": the path starts at
the first slash after the host. -/
def sampleUrlParse (s : List Byte) : Except Error URL :=
  Except.ok { Path := (s.drop 8).dropWhile (fun b => b ≠ 0x2f) }

/-- A key database of two keys. -/
def sampleKeys : Keys :=
  [(ascii "other.pem", ascii "KEY-0"), (ascii "ABC.p8", ascii "KEY-1")]

/-- Sample surroundings: the key database `sampleKeys`, and a server that
answers every GET with the given response. -/
def sampleEnv (resp : Except Error Response) : Env :=
  { keyData := [],
    gzipNewReader := fun d => Except.ok d,
    jsonDecode := fun _ => Except.ok sampleKeys,
    urlParse := sampleUrlParse,
    EqualFold := asciiEqualFold,
    httpGet := fun _ => resp }

/-- A toy PEM armour for the sample runs: a material that starts with "-"
holds one block, the bytes after the "-". -/
def samplePemDecode : List Byte → Option (List Byte)
  | b :: rest => if b = 0x2d then some rest else none
  | [] => none

/-- A toy PKCS8 encoding for the sample runs: a tag byte, then for an EC key
one byte for the curve and one byte for the scalar. -/
def sampleParsePKCS8 : List Byte → Except Error ParsedKey
  | [0x01] => Except.ok ParsedKey.rsa
  | [0x02, c, d] =>
    Except.ok (ParsedKey.ecdsa
      (if c.val = 0 then Curve.P224 else if c.val = 1 then Curve.P256
       else if c.val = 2 then Curve.P384 else Curve.P521) d.val)
  | [0x03] => Except.ok ParsedKey.ed25519
  | _ => Except.error (Error.other 1)

/-- Sample library functions for `UnmarshalBinaryPrivateKey`. -/
def sampleCrypto : Crypto :=
  { pemDecode := samplePemDecode, parsePKCS8PrivateKey := sampleParsePKCS8 }

/-! ## Lemmas on the readers -/

theorem avail_length (s : SectionReader) :
    s.avail.length = min (s.limit - s.off) (s.r.length - s.off) := by
  simp [SectionReader.avail]

theorem avail_take (s : SectionReader) (n : Nat) :
    s.avail.take n = (s.r.drop s.off).take (min n (s.limit - s.off)) := by
  simp [SectionReader.avail, List.take_take]

theorem Read_at_limit (s : SectionReader) (n : Nat) (h : s.limit ≤ s.off) :
    s.Read n = ([], some Error.EOF, s) := by
  simp [SectionReader.Read, h]

theorem Read_full (s : SectionReader) (n : Nat) (h : s.off < s.limit)
    (hfile : min n (s.limit - s.off) ≤ s.r.length - s.off) :
    s.Read n = (s.avail.take n, none, { s with off := s.off + min n (s.limit - s.off) }) := by
  have h1 : ¬ s.limit ≤ s.off := by omega
  have h2 : ((s.r.drop s.off).take (min n (s.limit - s.off))).length
      = min n (s.limit - s.off) := by
    rw [List.length_take, List.length_drop]; omega
  simp only [SectionReader.Read, h1, if_false, readAt, avail_take, h2, lt_self_iff_false]

theorem Read_short (s : SectionReader) (n : Nat) (h : s.off < s.limit)
    (hfile : s.r.length - s.off < min n (s.limit - s.off)) :
    s.Read n = (s.avail, some Error.EOF, { s with off := s.off + s.avail.length }) := by
  have h1 : ¬ s.limit ≤ s.off := by omega
  have h2 : (s.r.drop s.off).take (min n (s.limit - s.off)) = s.avail := by
    rw [SectionReader.avail, List.take_of_length_le, List.take_of_length_le]
    · rw [List.length_drop]; omega
    · rw [List.length_drop]; omega
  have h3 : s.avail.length < min n (s.limit - s.off) := by
    rw [avail_length]; omega
  simp only [SectionReader.Read, h1, if_false, readAt, h2, h3, if_true]

theorem readFullLoop_succ {σ : Type} (rd : σ → Nat → List Byte × Option Error × σ)
    (fuel min : Nat) (s : σ) (acc : List Byte) :
    readFullLoop rd (fuel + 1) min s acc =
      if acc.length < min then
        match rd s (min - acc.length) with
        | (got, none, s') => readFullLoop rd fuel min s' (acc ++ got)
        | (got, some e, s') => some (readFullFinish min (acc ++ got) (some e), s')
      else some (readFullFinish min acc none, s) := rfl

theorem binaryReadUint32_empty (s : SectionReader) (h : s.avail.length = 0) :
    ∃ s', binaryReadUint32 s = some (Except.error Error.EOF, s') := by
  have hl := avail_length s
  by_cases h1 : s.limit ≤ s.off
  · refine ⟨s, ?_⟩
    simp [binaryReadUint32, ReadFull, readFullLoop_succ, Read_at_limit s _ h1, readFullFinish]
  · have h2 : s.r.length - s.off < min 4 (s.limit - s.off) := by omega
    refine ⟨{ s with off := s.off + s.avail.length }, ?_⟩
    simp [binaryReadUint32, ReadFull, readFullLoop_succ, Read_short s _ (by omega) h2,
      readFullFinish, h]

theorem binaryReadUint32_short (s : SectionReader) (h0 : 0 < s.avail.length)
    (h4 : s.avail.length < 4) :
    ∃ s', binaryReadUint32 s = some (Except.error Error.ErrUnexpectedEOF, s') := by
  have hl := avail_length s
  have h1 : s.off < s.limit := by omega
  by_cases h2 : s.r.length - s.off < min 4 (s.limit - s.off)
  · refine ⟨{ s with off := s.off + s.avail.length }, ?_⟩
    simp [binaryReadUint32, ReadFull, readFullLoop_succ, Read_short s _ h1 h2,
      readFullFinish, h0, h4, Nat.not_le.mpr h4]
  · have h3 : min 4 (s.limit - s.off) = s.limit - s.off := by omega
    have h5 : (s.avail.take 4).length = s.limit - s.off := by
      rw [List.length_take]; omega
    refine ⟨{ s with off := s.off + min 4 (s.limit - s.off) }, ?_⟩
    rw [binaryReadUint32, ReadFull, readFullLoop_succ, if_pos (by simp),
      Read_full s _ h1 (by simp only [List.length_nil, Nat.sub_zero]; omega)]
    simp only [List.nil_append, List.length_nil, Nat.sub_zero]
    rw [readFullLoop_succ, if_pos (by omega), Read_at_limit _ _ (by simp only []; omega)]
    simp only [readFullFinish, List.append_nil, h5]
    rw [if_neg (by omega), if_pos ⟨by omega, trivial⟩]

theorem binaryReadUint32_ok (s : SectionReader) (h4 : 4 ≤ s.avail.length) :
    binaryReadUint32 s
      = some (Except.ok (leUint32 (s.avail.take 4)), { s with off := s.off + 4 }) := by
  have hl := avail_length s
  have h1 : s.off < s.limit := by omega
  have h3 : min 4 (s.limit - s.off) = 4 := by omega
  have h5 : (s.avail.take 4).length = 4 := by
    rw [List.length_take]; omega
  rw [binaryReadUint32, ReadFull, readFullLoop_succ, if_pos (by simp),
    Read_full s _ h1 (by simp only [List.length_nil, Nat.sub_zero]; omega)]
  simp only [List.nil_append, List.length_nil, Nat.sub_zero]
  rw [readFullLoop_succ, if_neg (by omega)]
  simp only [readFullFinish, h5, h3]
  simp

theorem avail_advance (s : SectionReader) (k : Nat) :
    ({ s with off := s.off + k } : SectionReader).avail = s.avail.drop k := by
  simp only [SectionReader.avail, List.drop_take, List.drop_drop, Nat.sub_add_eq]

theorem parseLoop_succ (fuel : Nat) (mdr : SectionReader) (metadata : Metadata) :
    parseLoop (fuel + 1) mdr metadata =
      match binaryReadUint32 mdr with
      | none => none
      | some (Except.error e, _) =>
        if e = Error.EOF then some (Except.ok metadata) else some (Except.error e)
      | some (Except.ok length, mdr1) =>
        match mdr1.Read (keyvalLen length) with
        | (_, some e, _) =>
          if e = Error.EOF then some (Except.ok metadata) else some (Except.error e)
        | (got, none, mdr2) =>
          parseLoop fuel mdr2
            (Metadata.set metadata
              (Cut (got ++ List.replicate (keyvalLen length - got.length) (0 : Byte)) 0).1
              (Cut (got ++ List.replicate (keyvalLen length - got.length) (0 : Byte)) 0).2) :=
  rfl

/-- The loop of `Info` is the loop `scan` over the deliverable bytes. -/
theorem parseLoop_eq_scan (fuel : Nat) :
    ∀ (s : SectionReader) (md : Metadata),
      parseLoop fuel s md = scan fuel s.avail (s.limit - s.off) md := by
  induction fuel with
  | zero => intro s md; rfl
  | succ fuel ih =>
    intro s md
    have hl := avail_length s
    rw [parseLoop_succ, scan]
    by_cases h0 : s.avail.length = 0
    · obtain ⟨s', hs'⟩ := binaryReadUint32_empty s h0
      rw [hs', if_pos h0]; rfl
    · rw [if_neg h0]
      by_cases h4 : s.avail.length < 4
      · obtain ⟨s', hs'⟩ := binaryReadUint32_short s (by omega) h4
        rw [hs', if_pos h4]; rfl
      · rw [if_neg h4, binaryReadUint32_ok s (by omega)]
        simp only []
        have hav := avail_advance s 4
        have hl1 := avail_length { s with off := s.off + 4 }
        simp only [] at hl1
        by_cases hroom : s.limit - s.off ≤ 4
        · rw [if_pos hroom, Read_at_limit _ _ (by simp only []; omega)]
          rfl
        · rw [if_neg hroom]
          have hlt : s.off + 4 < s.limit := by omega
          by_cases hshort : (s.avail.drop 4).length
              < min (keyvalLen (leUint32 (s.avail.take 4))) (s.limit - s.off - 4)
          · rw [if_pos hshort, Read_short _ _ (by simp only []; omega)
              (by rw [← hav, hl1] at hshort; simp only []; omega)]
            rfl
          · rw [if_neg hshort, Read_full _ _ (by simp only []; omega)
              (by rw [← hav, hl1] at hshort; simp only []; omega)]
            simp only []
            rw [ih, hav]
            have hk : ((s.avail.drop 4).take (keyvalLen (leUint32 (s.avail.take 4)))).length
                = min (keyvalLen (leUint32 (s.avail.take 4))) (s.limit - (s.off + 4)) := by
              rw [List.length_take]
              rw [← hav, hl1] at hshort
              rw [← hav, hl1]
              omega
            rw [hk]
            have e1 := avail_advance { s with off := s.off + 4 }
              (min (keyvalLen (leUint32 (s.avail.take 4))) (s.limit - (s.off + 4)))
            simp only [] at e1
            rw [e1, hav]
            simp only []
            generalize min (keyvalLen (leUint32 (s.avail.take 4))) (s.limit - (s.off + 4)) = k
            rw [show s.limit - (s.off + 4 + k) = s.limit - s.off - 4 - k by omega]

/-! ## `Info` on a file of at least 12 bytes -/

theorem binaryReadHeader_ok (file : List Byte) (h : 12 ≤ file.length) :
    binaryReadHeader { data := file, pos := 0 }
      = some (Except.ok { Magic := file.take 4,
                          Version := leUint32 ((file.drop 4).take 4),
                          Length := leUint32 ((file.drop 8).take 4) },
              { data := file, pos := 12 }) := by
  have h1 : (file.take 12).length = 12 := by rw [List.length_take]; omega
  have hr : OSFile.Read { data := file, pos := 0 } 12
      = (file.take 12, none, { data := file, pos := 12 }) := by
    simp [OSFile.Read, h1]
  rw [binaryReadHeader, ReadFull, readFullLoop_succ, if_pos (by simp)]
  simp only [List.length_nil, Nat.sub_zero, hr, List.nil_append]
  rw [readFullLoop_succ, if_neg (by omega)]
  simp only [readFullFinish, h1, le_refl, if_true]
  simp [List.take_take, List.drop_take]

theorem Info_eq_scan (file : List Byte) (h : 12 ≤ file.length) :
    Info (Except.ok file) =
      if file.take 4 ≠ magicAEA1 then some (Except.error (Error.invalidHeader (file.take 4)))
      else scan (hdrLength file + 1) (region file) (hdrLength file) [] := by
  rw [Info]
  simp only [binaryReadHeader_ok file h]
  by_cases hm : file.take 4 = magicAEA1
  · simp only [hm, ne_eq, not_true_eq_false, if_false]
    rw [parseLoop_eq_scan]
    simp [NewSectionReader, SectionReader.avail, region, hdrLength]
  · simp only [ne_eq, hm, not_false_eq_true, if_true]

theorem shortField_iff (A : List Byte) :
    ShortField A ↔ (0 < A.length ∧ A.length < 4) ∨
      (4 ≤ A.length ∧ 4 + keyvalLen (leUint32 (A.take 4)) ≤ A.length ∧
        ShortField (A.drop (4 + keyvalLen (leUint32 (A.take 4))))) := by
  constructor
  · intro h
    cases h with
    | here h0 h4 => exact Or.inl ⟨h0, h4⟩
    | skip p h4 he hp hs => subst he; exact Or.inr ⟨h4, hp, hs⟩
  · rintro (⟨h0, h4⟩ | ⟨h4, hp, hs⟩)
    · exact ShortField.here h0 h4
    · exact ShortField.skip _ h4 rfl hp hs

theorem scan_succ (fuel : Nat) (A : List Byte) (room : Nat) (md : Metadata) :
    scan (fuel + 1) A room md =
      if A.length = 0 then some (Except.ok md)
      else if A.length < 4 then some (Except.error Error.ErrUnexpectedEOF)
      else if room ≤ 4 then some (Except.ok md)
      else if (A.drop 4).length < min (keyvalLen (leUint32 (A.take 4))) (room - 4) then
        some (Except.ok md)
      else
        scan fuel ((A.drop 4).drop ((A.drop 4).take (keyvalLen (leUint32 (A.take 4)))).length)
          (room - 4 - ((A.drop 4).take (keyvalLen (leUint32 (A.take 4)))).length)
          (Metadata.set md
            (Cut ((A.drop 4).take (keyvalLen (leUint32 (A.take 4))) ++
              List.replicate (keyvalLen (leUint32 (A.take 4))
                - ((A.drop 4).take (keyvalLen (leUint32 (A.take 4)))).length) (0 : Byte)) 0).1
            (Cut ((A.drop 4).take (keyvalLen (leUint32 (A.take 4))) ++
              List.replicate (keyvalLen (leUint32 (A.take 4))
                - ((A.drop 4).take (keyvalLen (leUint32 (A.take 4)))).length) (0 : Byte)) 0).2) :=
  rfl

/-- With fuel above the number of deliverable bytes the loop ends, with
`io.ErrUnexpectedEOF` on a short length field and with a map otherwise. -/
theorem scan_result (fuel : Nat) :
    ∀ (A : List Byte) (room : Nat) (md : Metadata), A.length ≤ room → A.length < fuel →
      (ShortField A → scan fuel A room md = some (Except.error Error.ErrUnexpectedEOF)) ∧
      (¬ ShortField A → ∃ md', scan fuel A room md = some (Except.ok md')) := by
  induction fuel with
  | zero => intro A room md _ h; omega
  | succ fuel ih =>
    intro A room md hroom hfuel
    rw [scan_succ, shortField_iff]
    by_cases h0 : A.length = 0
    · rw [if_pos h0]
      exact ⟨fun h => by omega, fun _ => ⟨md, rfl⟩⟩
    rw [if_neg h0]
    by_cases h4 : A.length < 4
    · rw [if_pos h4]
      exact ⟨fun _ => rfl, fun h => absurd (Or.inl ⟨by omega, h4⟩) h⟩
    rw [if_neg h4]
    generalize hp : keyvalLen (leUint32 (A.take 4)) = p
    have hd : (A.drop 4).length = A.length - 4 := List.length_drop 4 A
    by_cases hr : room ≤ 4
    · rw [if_pos hr]
      refine ⟨?_, fun _ => ⟨md, rfl⟩⟩
      rintro (⟨_, h⟩ | ⟨_, h, hs⟩)
      · omega
      · rw [shortField_iff] at hs
        have hdl : (A.drop (4 + p)).length = A.length - (4 + p) := List.length_drop _ A
        omega
    rw [if_neg hr]
    by_cases hshort : (A.drop 4).length < min p (room - 4)
    · rw [if_pos hshort]
      refine ⟨?_, fun _ => ⟨md, rfl⟩⟩
      rintro (⟨_, h⟩ | ⟨_, h, _⟩) <;> omega
    rw [if_neg hshort]
    have hg : ((A.drop 4).take p).length = min p (A.length - 4) := by
      rw [List.length_take, hd]
    have hA' : ((A.drop 4).drop ((A.drop 4).take p).length).length
        = A.length - 4 - min p (A.length - 4) := by
      rw [List.length_drop, hd, hg]
    obtain ⟨ih1, ih2⟩ := ih ((A.drop 4).drop ((A.drop 4).take p).length)
      (room - 4 - ((A.drop 4).take p).length)
      (Metadata.set md
        (Cut ((A.drop 4).take p ++ List.replicate (p - ((A.drop 4).take p).length) (0 : Byte)) 0).1
        (Cut ((A.drop 4).take p ++ List.replicate (p - ((A.drop 4).take p).length) (0 : Byte)) 0).2)
      (by rw [hA', hg]; omega) (by rw [hA']; omega)
    by_cases hfit : p ≤ A.length - 4
    · have hdd : (A.drop 4).drop ((A.drop 4).take p).length = A.drop (4 + p) := by
        rw [hg, List.drop_drop, Nat.min_eq_left hfit]
      rw [hdd] at ih1 ih2 ⊢
      constructor
      · rintro (⟨_, h⟩ | ⟨_, _, hs⟩)
        · omega
        · exact ih1 hs
      · intro hn
        exact ih2 (fun hs => hn (Or.inr ⟨by omega, by omega, hs⟩))
    · have hnot : ¬ ShortField ((A.drop 4).drop ((A.drop 4).take p).length) := by
        intro hs
        rw [shortField_iff] at hs
        omega
      constructor
      · rintro (⟨_, h⟩ | ⟨_, h, _⟩) <;> omega
      · intro _
        exact ih2 hnot

/-! ## The loop on a region made of whole entries -/

theorem putUint32_length (n : Nat) : (putUint32 n).length = 4 := rfl

theorem leUint32_putUint32 (n : Nat) (h : n < 4294967296) : leUint32 (putUint32 n) = n := by
  simp only [leUint32, putUint32, Fin.ofNat, Fin.val_mk]
  omega

theorem leUint32_lt (bs : List Byte) : leUint32 bs < 4294967296 := by
  unfold leUint32
  split
  · rename_i b0 b1 b2 b3
    have h0 := b0.isLt
    have h1 := b1.isLt
    have h2 := b2.isLt
    have h3 := b3.isLt
    omega
  · omega

/-- On a `uint32` the payload length is `length - 4` modulo `2 ^ 32`. -/
theorem keyvalLen_eq_mod (length : Nat) (h : length < 4294967296) :
    keyvalLen length = (length + 4294967296 - 4) % 4294967296 := by
  unfold keyvalLen
  split <;> omega

theorem keyvalLen_of_le (n : Nat) (h : 4 ≤ n) : keyvalLen n = n - 4 := by
  simp [keyvalLen, h]

theorem Cut_key_value (k v : List Byte) (hk : (0 : Byte) ∉ k) :
    Cut (k ++ (0 : Byte) :: v) 0 = (k, v) := by
  induction k with
  | nil => simp [Cut]
  | cons b k ih =>
    have hb : b ≠ 0 := fun h => hk (by simp [h])
    have hk' : (0 : Byte) ∉ k := fun h => hk (by simp [h])
    simp [Cut, hb, ih hk']

theorem Metadata.get_set (md : Metadata) (k v k' : List Byte) :
    Metadata.get (Metadata.set md k v) k' = if k = k' then some v else Metadata.get md k' := by
  induction md with
  | nil => simp [Metadata.set, Metadata.get]
  | cons p md ih =>
    obtain ⟨a, b⟩ := p
    by_cases h : a = k
    · subst h
      by_cases h' : a = k' <;> simp [Metadata.set, Metadata.get, h']
    · by_cases h' : a = k'
      · subst h'
        simp [Metadata.set, Metadata.get, h, Ne.symm h]
      · simp [Metadata.set, Metadata.get, h, h', ih]

theorem get_foldl_set (es : List (List Byte × List Byte)) :
    ∀ (md : Metadata) (k : List Byte),
      Metadata.get (es.foldl (fun m e => Metadata.set m e.1 e.2) md) k =
        match lastOccurrence es k with
        | some v => some v
        | none => Metadata.get md k := by
  induction es with
  | nil => intro md k; rfl
  | cons e es ih =>
    intro md k
    rw [List.foldl_cons, ih, lastOccurrence]
    cases h : lastOccurrence es k with
    | some v => rfl
    | none =>
      simp only [Metadata.get_set]
      by_cases he : e.1 = k <;> simp [he]

theorem mem_keys_of_lastOccurrence (es : List (List Byte × List Byte)) (k : List Byte) :
    ∀ v, lastOccurrence es k = some v → k ∈ es.map Prod.fst := by
  induction es with
  | nil => intro v h; simp [lastOccurrence] at h
  | cons b es ih =>
    intro v h
    rw [lastOccurrence] at h
    rw [List.map_cons, List.mem_cons]
    cases hb : lastOccurrence es k with
    | some w => exact Or.inr (ih w hb)
    | none =>
      rw [hb] at h
      by_cases hbe : b.1 = k
      · exact Or.inl hbe.symm
      · simp [hbe] at h

theorem lastOccurrence_of_nodup (es : List (List Byte × List Byte))
    (hnd : (es.map Prod.fst).Nodup) :
    ∀ e ∈ es, lastOccurrence es e.1 = some e.2 := by
  induction es with
  | nil => intro e he; cases he
  | cons a es ih =>
    intro e he
    rw [List.map_cons, List.nodup_cons] at hnd
    rw [lastOccurrence]
    rcases List.mem_cons.mp he with h | h
    · subst h
      cases hl : lastOccurrence es e.1 with
      | none => simp
      | some v => exact absurd (mem_keys_of_lastOccurrence es e.1 v hl) hnd.1
    · rw [ih hnd.2 e h]

theorem serialiseEntry_length (e : List Byte × List Byte) :
    (serialiseEntry e).length = 4 + e.1.length + 1 + e.2.length := by
  simp only [serialiseEntry, List.length_append, putUint32_length, List.length_cons,
    List.length_nil]

/-- One turn of the loop on a region that starts with a whole entry. -/
theorem scan_entry (fuel : Nat) (k v rest : List Byte) (room : Nat) (md : Metadata)
    (hk : (0 : Byte) ∉ k) (hn : 4 + k.length + 1 + v.length < 4294967296)
    (hroom : 4 + k.length + 1 + v.length + rest.length ≤ room) :
    scan (fuel + 1) (serialiseEntry (k, v) ++ rest) room md =
      scan fuel rest (room - (4 + k.length + 1 + v.length)) (Metadata.set md k v) := by
  have hA : serialiseEntry (k, v) ++ rest
      = putUint32 (4 + k.length + 1 + v.length) ++ ((k ++ (0 : Byte) :: v) ++ rest) := by
    simp [serialiseEntry]
  have ht : (serialiseEntry (k, v) ++ rest).take 4 = putUint32 (4 + k.length + 1 + v.length) := by
    rw [hA, List.take_left' (putUint32_length _)]
  have hd : (serialiseEntry (k, v) ++ rest).drop 4 = (k ++ (0 : Byte) :: v) ++ rest := by
    rw [hA, List.drop_left' (putUint32_length _)]
  have hlen : (serialiseEntry (k, v) ++ rest).length
      = 4 + k.length + 1 + v.length + rest.length := by
    rw [List.length_append, serialiseEntry_length]
  have hp : keyvalLen (leUint32 (putUint32 (4 + k.length + 1 + v.length)))
      = k.length + 1 + v.length := by
    rw [leUint32_putUint32 _ hn, keyvalLen_of_le _ (by omega)]
    omega
  have hkv : (k ++ (0 : Byte) :: v).length = k.length + 1 + v.length := by
    simp; omega
  have htk : ((k ++ (0 : Byte) :: v) ++ rest).take (k.length + 1 + v.length)
      = k ++ (0 : Byte) :: v := List.take_left' hkv
  have hdk : ((k ++ (0 : Byte) :: v) ++ rest).drop (k.length + 1 + v.length) = rest :=
    List.drop_left' hkv
  rw [scan_succ, if_neg (by omega), if_neg (by omega), if_neg (by omega), ht, hd, hp, htk,
    hkv, hdk, if_neg (by rw [List.length_append, hkv]; omega)]
  simp only [Nat.sub_self, List.replicate_zero, List.append_nil, Cut_key_value k v hk]
  congr 1
  omega

theorem length_le_serialise (es : List (List Byte × List Byte)) :
    es.length ≤ (serialise es).length := by
  induction es with
  | nil => simp [serialise]
  | cons e es ih =>
    rw [serialise, List.length_append, serialiseEntry_length, List.length_cons]
    omega

/-- The loop on a region that starts with whole entries takes them one by
one into the map. -/
theorem scan_entries (es : List (List Byte × List Byte))
    (hkey : ∀ e ∈ es, (0 : Byte) ∉ e.1)
    (hlen : ∀ e ∈ es, 4 + e.1.length + 1 + e.2.length < 4294967296) :
    ∀ (fuel : Nat) (rest : List Byte) (room : Nat) (md : Metadata),
      (serialise es).length + rest.length ≤ room →
      scan (es.length + fuel) (serialise es ++ rest) room md =
        scan fuel rest (room - (serialise es).length)
          (es.foldl (fun m e => Metadata.set m e.1 e.2) md) := by
  induction es with
  | nil =>
    intro fuel rest room md _
    simp [serialise]
  | cons e es ih =>
    intro fuel rest room md hroom
    obtain ⟨k, v⟩ := e
    rw [serialise, List.length_append, serialiseEntry_length] at hroom
    simp only [] at hroom
    rw [show (((k, v) :: es).length + fuel) = (es.length + fuel) + 1 by
        rw [List.length_cons]; omega,
      serialise, List.append_assoc,
      scan_entry _ k v _ room md (hkey (k, v) (List.mem_cons_self _ _))
        (hlen (k, v) (List.mem_cons_self _ _))
        (by rw [List.length_append]; omega),
      ih (fun e he => hkey e (List.mem_cons_of_mem _ he))
        (fun e he => hlen e (List.mem_cons_of_mem _ he)) fuel rest _ _
        (by omega),
      List.foldl_cons, List.length_append, serialiseEntry_length]
    simp only []
    congr 1
    omega

theorem Info_header (version L : Nat) (body : List Byte) (hL : L < 4294967296) :
    Info (Except.ok (headerBytes magicAEA1 version L ++ body))
      = scan (L + 1) (body.take L) L [] := by
  have hshape : headerBytes magicAEA1 version L ++ body
      = (magicAEA1 ++ putUint32 version) ++ (putUint32 L ++ body) := by
    simp [headerBytes]
  have h8 : (magicAEA1 ++ putUint32 version).length = 8 := rfl
  have h12 : (headerBytes magicAEA1 version L).length = 12 := rfl
  have hm : (headerBytes magicAEA1 version L ++ body).take 4 = magicAEA1 := rfl
  have hlen : hdrLength (headerBytes magicAEA1 version L ++ body) = L := by
    rw [hdrLength, hshape, List.drop_left' h8, List.take_left' (putUint32_length L),
      leUint32_putUint32 L hL]
  have hreg : region (headerBytes magicAEA1 version L ++ body) = body.take L := by
    rw [region, hlen, List.drop_left' h12]
  rw [Info_eq_scan _ (by rw [List.length_append, h12]; omega), hm, hlen, hreg,
    if_neg (by simp)]

theorem scan_nil (fuel room : Nat) (md : Metadata) :
    scan (fuel + 1) [] room md = some (Except.ok md) := rfl

theorem Cut_pad_key (l : List Byte) (m : Nat) :
    (Cut (l ++ List.replicate m (0 : Byte)) 0).1 = (Cut l 0).1 := by
  induction l with
  | nil =>
    cases m with
    | zero => rfl
    | succ m => simp [List.replicate_succ, Cut]
  | cons b l ih =>
    by_cases hb : b = 0
    · simp [Cut, hb]
    · simp [Cut, hb, ih]

/-- The loop on a last entry whose declared length `n` passes the end of the
region: nothing is added when no payload byte is there, otherwise the bytes
at hand, filled with zero bytes up to the declared length, are cut into a key
and a value. -/
theorem scan_truncated (fuel n : Nat) (part : List Byte) (md : Metadata)
    (hn : 4 + part.length < n) (hn32 : n < 4294967296) :
    scan (fuel + 2) (putUint32 n ++ part) (4 + part.length) md =
      some (Except.ok
        (if part = [] then md
         else Metadata.set md
          (Cut (part ++ List.replicate (n - 4 - part.length) (0 : Byte)) 0).1
          (Cut (part ++ List.replicate (n - 4 - part.length) (0 : Byte)) 0).2)) := by
  have ht : (putUint32 n ++ part).take 4 = putUint32 n :=
    List.take_left' (putUint32_length n)
  have hd : (putUint32 n ++ part).drop 4 = part := List.drop_left' (putUint32_length n)
  have hp : keyvalLen (leUint32 (putUint32 n)) = n - 4 := by
    rw [leUint32_putUint32 _ hn32, keyvalLen_of_le _ (by omega)]
  have hlen : (putUint32 n ++ part).length = 4 + part.length := by
    rw [List.length_append, putUint32_length]
  rw [scan_succ, if_neg (by omega), if_neg (by omega), ht, hd, hp]
  by_cases hpart : part = []
  · subst hpart
    simp
  · have hpos : 0 < part.length := List.length_pos.mpr hpart
    have htake : part.take (n - 4) = part := List.take_of_length_le (by omega)
    rw [if_neg (by omega), if_neg (by omega), htake, List.drop_length, scan_nil, if_neg hpart]

theorem binaryReadHeader_short (file : List Byte) (h : file.length < 12) :
    ∃ e f', binaryReadHeader { data := file, pos := 0 } = some (Except.error e, f') := by
  by_cases h0 : file.length = 0
  · have hr : OSFile.Read { data := file, pos := 0 } 12
        = ([], some Error.EOF, { data := file, pos := 0 }) := by
      simp [OSFile.Read, h0]
    refine ⟨Error.EOF, { data := file, pos := 0 }, ?_⟩
    rw [binaryReadHeader, ReadFull, readFullLoop_succ, if_pos (by simp)]
    simp only [List.length_nil, Nat.sub_zero, hr, List.nil_append]
    simp [readFullFinish]
  · have ht : file.take 12 = file := List.take_of_length_le (by omega)
    have hr : OSFile.Read { data := file, pos := 0 } 12
        = (file, none, { data := file, pos := file.length }) := by
      simp [OSFile.Read, ht, h0]
    have hr2 : OSFile.Read { data := file, pos := file.length } (12 - file.length)
        = ([], some Error.EOF, { data := file, pos := file.length }) := by
      simp [OSFile.Read]
      omega
    refine ⟨Error.ErrUnexpectedEOF, { data := file, pos := file.length }, ?_⟩
    rw [binaryReadHeader, ReadFull, readFullLoop_succ, if_pos (by simp)]
    simp only [List.length_nil, Nat.sub_zero, hr, List.nil_append]
    rw [readFullLoop_succ, if_pos h, hr2]
    simp only [readFullFinish, List.append_nil]
    rw [if_neg (by omega), if_pos ⟨by omega, trivial⟩]

/-- Function `Info` always returns: the fuel of its loops never ends first. -/
theorem Info_total (opened : Except Error (List Byte)) : ∃ r, Info opened = some r := by
  cases opened with
  | error e => exact ⟨_, rfl⟩
  | ok file =>
    by_cases hlen : 12 ≤ file.length
    · rw [Info_eq_scan file hlen]
      by_cases hm : file.take 4 ≠ magicAEA1
      · rw [if_pos hm]; exact ⟨_, rfl⟩
      · rw [if_neg hm]
        have hreg : (region file).length ≤ hdrLength file := by
          unfold region
          rw [List.length_take]
          omega
        obtain ⟨h1, h2⟩ := scan_result (hdrLength file + 1) (region file) (hdrLength file) []
          hreg (by omega)
        by_cases hs : ShortField (region file)
        · exact ⟨_, h1 hs⟩
        · obtain ⟨md, hmd⟩ := h2 hs
          exact ⟨_, hmd⟩
    · obtain ⟨e, f', hh⟩ := binaryReadHeader_short file (by omega)
      rw [Info]
      simp only [hh]
      exact ⟨_, rfl⟩

/-- A declared length below 4 wraps around in `uint32` and is no error: the
loop ends there with a map. -/
theorem Info_length_below_four (version L n : Nat) (rest : List Byte)
    (hL : 4 ≤ L) (hL32 : L < 4294967296) (hn : n < 4) :
    ∃ md, Info (Except.ok (headerBytes magicAEA1 version L ++ (putUint32 n ++ rest)))
      = some (Except.ok md) := by
  have hlen : ((putUint32 n ++ rest).take L).length ≤ L := by
    rw [List.length_take]; omega
  have h4 : 4 ≤ ((putUint32 n ++ rest).take L).length := by
    rw [List.length_take, List.length_append, putUint32_length]; omega
  have ht : ((putUint32 n ++ rest).take L).take 4 = putUint32 n := by
    rw [List.take_take, Nat.min_eq_left hL, List.take_left' (putUint32_length n)]
  have hp : keyvalLen (leUint32 (putUint32 n)) = n + 4294967292 := by
    rw [leUint32_putUint32 n (by omega)]
    simp [keyvalLen]
    omega
  have hns : ¬ ShortField ((putUint32 n ++ rest).take L) := by
    rw [shortField_iff, ht, hp]
    omega
  rw [Info_header _ _ _ hL32]
  exact (scan_result (L + 1) _ L [] hlen (by omega)).2 hns

/-! ## Concrete runs of `Info` -/

/-- An entry that passes the end of the region is read up to the end of the
region and filled with zero bytes: the bytes "vvv" after the region are not
read. -/
theorem Info_run_past_region :
    Info (Except.ok (headerBytes magicAEA1 1 6 ++ putUint32 9 ++ ascii "k\x00vvv"))
      = some (Except.ok [(ascii "k", [0, 0, 0])]) := by decide

/-- A region that the file cuts short inside a payload ends the loop. -/
theorem Info_run_file_cut_short :
    Info (Except.ok (headerBytes magicAEA1 1 4294967295 ++ serialiseEntry (ascii "ab", ascii "c")
        ++ putUint32 9 ++ ascii "k"))
      = some (Except.ok [(ascii "ab", ascii "c")]) := by decide

/-- Three bytes where a length field is expected are an error. -/
theorem Info_run_short_length_field :
    Info (Except.ok (headerBytes magicAEA1 1 11 ++ serialiseEntry (ascii "ab", ascii "c")
        ++ ascii "zzz"))
      = some (Except.error Error.ErrUnexpectedEOF) := by decide

/-! ## Claims on `Info` -/

/-- C1: for entries whose keys hold no 0x00 byte and whose total lengths fit
in a `uint32`, on the file made of the header ("AEA1", any version, length =
size of the region) and the serialised entries, `Info` returns without error
the map that sends each key to the value of its last occurrence and holds no
other key.  When the keys are pairwise distinct, serialising the returned
pairs in the order of the entries gives back the region byte for byte. -/
theorem Info_decodes_entries (es : List (List Byte × List Byte)) (version : Nat)
    (hkey : ∀ e ∈ es, (0 : Byte) ∉ e.1)
    (hlen : ∀ e ∈ es, 4 + e.1.length + 1 + e.2.length < 4294967296)
    (hL : (serialise es).length < 4294967296) :
    ∃ md, Info (Except.ok (headerBytes magicAEA1 version (serialise es).length ++ serialise es))
        = some (Except.ok md) ∧
      (∀ k, Metadata.get md k = lastOccurrence es k) ∧
      ((es.map Prod.fst).Nodup →
        serialise (es.filterMap (fun e => (Metadata.get md e.1).map (Prod.mk e.1)))
          = (headerBytes magicAEA1 version (serialise es).length ++ serialise es).drop 12) := by
  have hget : ∀ k, Metadata.get (es.foldl (fun m e => Metadata.set m e.1 e.2) []) k
      = lastOccurrence es k := by
    intro k
    rw [get_foldl_set]
    cases lastOccurrence es k <;> rfl
  refine ⟨es.foldl (fun m e => Metadata.set m e.1 e.2) [], ?_, hget, ?_⟩
  · have hfuel : (serialise es).length + 1
        = es.length + (((serialise es).length - es.length) + 1) := by
      have := length_le_serialise es
      omega
    have h := scan_entries es hkey hlen (((serialise es).length - es.length) + 1) []
      (serialise es).length [] (by simp)
    rw [List.append_nil] at h
    rw [Info_header _ _ _ hL, List.take_length, hfuel, h, scan_nil]
  · intro hnd
    have hsome : ∀ e ∈ es,
        (Metadata.get (es.foldl (fun m e => Metadata.set m e.1 e.2) []) e.1).map (Prod.mk e.1)
          = some e := by
      intro e he
      rw [hget, lastOccurrence_of_nodup es hnd e he]
      rfl
    have h12 : (headerBytes magicAEA1 version (serialise es).length).length = 12 := rfl
    rw [List.drop_left' h12, List.filterMap_congr hsome, List.filterMap_some]

theorem Info_decodes_entries_witness :
    ∃ md, Info (Except.ok (headerBytes magicAEA1 1
          (serialise [(ascii "a", ascii "x\x00y"), (ascii "b", []), (ascii "a", ascii "z")]).length
          ++ serialise [(ascii "a", ascii "x\x00y"), (ascii "b", []), (ascii "a", ascii "z")]))
        = some (Except.ok md) ∧
      (∀ k, Metadata.get md k
        = lastOccurrence [(ascii "a", ascii "x\x00y"), (ascii "b", []), (ascii "a", ascii "z")] k) ∧
      (([(ascii "a", ascii "x\x00y"), (ascii "b", []), (ascii "a", ascii "z")].map Prod.fst).Nodup →
        serialise ([(ascii "a", ascii "x\x00y"), (ascii "b", []), (ascii "a", ascii "z")].filterMap
            (fun e => (Metadata.get md e.1).map (Prod.mk e.1)))
          = (headerBytes magicAEA1 1
              (serialise [(ascii "a", ascii "x\x00y"), (ascii "b", []), (ascii "a", ascii "z")]).length
              ++ serialise [(ascii "a", ascii "x\x00y"), (ascii "b", []), (ascii "a", ascii "z")]).drop 12) :=
  Info_decodes_entries [(ascii "a", ascii "x\x00y"), (ascii "b", []), (ascii "a", ascii "z")] 1
    (by decide) (by decide) (by decide)

/-- C2, the claim refuted: a file whose region ends with an entry of declared
length 9 and 2 payload bytes makes `Info` return a map and no error. -/
theorem Info_no_error_on_short_payload :
    Info (Except.ok (headerBytes magicAEA1 1 13 ++ serialiseEntry (ascii "a", ascii "b")
        ++ putUint32 9 ++ ascii "cd"))
      = some (Except.ok [(ascii "a", ascii "b"), (ascii "cd", [0, 0])]) := by decide

/-- C2, amended: when the region ends, after whole entries, with an entry
whose length field is whole and whose declared length `n` passes the end of
the region, `Info` returns no error but a map.  For every key other than the
key cut from the payload bytes at hand, the map holds the value of the last
occurrence among the whole entries, and with no payload byte at hand it is
the map of the whole entries. -/
theorem Info_truncated_entry (es : List (List Byte × List Byte)) (version n : Nat)
    (part rest : List Byte)
    (hkey : ∀ e ∈ es, (0 : Byte) ∉ e.1)
    (hlen : ∀ e ∈ es, 4 + e.1.length + 1 + e.2.length < 4294967296)
    (hn : 4 + part.length < n) (hn32 : n < 4294967296)
    (hL : (serialise es).length + 4 + part.length < 4294967296) :
    ∃ md, Info (Except.ok (headerBytes magicAEA1 version ((serialise es).length + 4 + part.length)
          ++ (serialise es ++ (putUint32 n ++ part) ++ rest)))
        = some (Except.ok md) ∧
      (∀ k, k ≠ (Cut part 0).1 → Metadata.get md k = lastOccurrence es k) ∧
      (part = [] → ∀ k, Metadata.get md k = lastOccurrence es k) := by
  have hget : ∀ k, Metadata.get (es.foldl (fun m e => Metadata.set m e.1 e.2) []) k
      = lastOccurrence es k := by
    intro k
    rw [get_foldl_set]
    cases lastOccurrence es k <;> rfl
  have hle := length_le_serialise es
  have htake : (serialise es ++ (putUint32 n ++ part) ++ rest).take
      ((serialise es).length + 4 + part.length) = serialise es ++ (putUint32 n ++ part) := by
    apply List.take_left'
    simp only [List.length_append, putUint32_length]
    omega
  have hfuel : (serialise es).length + 4 + part.length + 1
      = es.length + (((serialise es).length + 3 + part.length - es.length) + 2) := by
    omega
  have h := scan_entries es hkey hlen
    (((serialise es).length + 3 + part.length - es.length) + 2) (putUint32 n ++ part)
    ((serialise es).length + 4 + part.length) []
    (by simp only [List.length_append, putUint32_length]; omega)
  rw [show (serialise es).length + 4 + part.length - (serialise es).length = 4 + part.length by
    omega, scan_truncated _ n part _ hn hn32] at h
  refine ⟨if part = [] then es.foldl (fun m e => Metadata.set m e.1 e.2) []
    else Metadata.set (es.foldl (fun m e => Metadata.set m e.1 e.2) [])
      (Cut (part ++ List.replicate (n - 4 - part.length) (0 : Byte)) 0).1
      (Cut (part ++ List.replicate (n - 4 - part.length) (0 : Byte)) 0).2, ?_, ?_, ?_⟩
  · rw [Info_header _ _ _ hL, htake, hfuel, h]
  · intro k hk
    by_cases hpart : part = []
    · rw [if_pos hpart, hget]
    · rw [if_neg hpart, Metadata.get_set, Cut_pad_key, if_neg (Ne.symm hk), hget]
  · intro hpart k
    rw [if_pos hpart, hget]

theorem Info_truncated_entry_witness :
    ∃ md, Info (Except.ok (headerBytes magicAEA1 1
          ((serialise [(ascii "a", ascii "b")]).length + 4 + (ascii "cd").length)
          ++ (serialise [(ascii "a", ascii "b")] ++ (putUint32 9 ++ ascii "cd") ++ ascii "tail")))
        = some (Except.ok md) ∧
      (∀ k, k ≠ (Cut (ascii "cd") 0).1 →
        Metadata.get md k = lastOccurrence [(ascii "a", ascii "b")] k) ∧
      (ascii "cd" = [] → ∀ k, Metadata.get md k = lastOccurrence [(ascii "a", ascii "b")] k) :=
  Info_truncated_entry [(ascii "a", ascii "b")] 1 9 (ascii "cd") (ascii "tail")
    (by decide) (by decide) (by decide) (by decide) (by decide)

/-- C3: a file of at least 12 bytes whose first 4 bytes are not "AEA1" makes
`Info` return the invalid-header error, and no map, whatever the version, the
length field and the bytes that follow; the metadata loop is not entered. -/
theorem Info_bad_magic (file : List Byte) (hlen : 12 ≤ file.length)
    (hmagic : file.take 4 ≠ magicAEA1) :
    Info (Except.ok file) = some (Except.error (Error.invalidHeader (file.take 4))) := by
  rw [Info_eq_scan file hlen, if_pos hmagic]

theorem Info_bad_magic_witness :
    12 ≤ (ascii "AEA2" ++ putUint32 1 ++ putUint32 8
          ++ serialiseEntry (ascii "k", ascii "vv")).length ∧
    Info (Except.ok (ascii "AEA2" ++ putUint32 1 ++ putUint32 8
          ++ serialiseEntry (ascii "k", ascii "vv")))
      = some (Except.error (Error.invalidHeader (ascii "AEA2"))) :=
  ⟨by decide, Info_bad_magic _ (by decide) (by decide)⟩

/-- C4: two files that both hold at least `12 + hdr.Length` bytes and agree
on their first `12 + hdr.Length` bytes give the same result of `Info`, the
same map or the same error: no byte after the declared region is looked at. -/
theorem Info_reads_within_region (f g : List Byte)
    (hf : 12 + hdrLength f ≤ f.length) (hg : 12 + hdrLength f ≤ g.length)
    (hagree : f.take (12 + hdrLength f) = g.take (12 + hdrLength f)) :
    Info (Except.ok f) = Info (Except.ok g) := by
  have key : ∀ (a b : Nat), a + b ≤ 12 + hdrLength f →
      (f.drop a).take b = (g.drop a).take b := by
    intro a b hab
    have e1 : ∀ l : List Byte, (l.drop a).take b = ((l.take (12 + hdrLength f)).drop a).take b := by
      intro l
      rw [List.drop_take, List.take_take, Nat.min_eq_left (by omega)]
    rw [e1 f, e1 g, hagree]
  have h4 : f.take 4 = g.take 4 := by
    have := key 0 4 (by omega)
    simpa using this
  have hL : hdrLength f = hdrLength g := by
    unfold hdrLength
    rw [key 8 4 (by omega)]
  have hR : region f = region g := by
    unfold region
    rw [← hL, key 12 (hdrLength f) (by omega)]
  rw [Info_eq_scan f (by omega), Info_eq_scan g (by omega), h4, hL, hR]

theorem Info_reads_within_region_witness :
    Info (Except.ok (ascii "AEA1" ++ putUint32 1 ++ putUint32 6 ++ putUint32 9 ++ ascii "k\x00vvv"))
      = Info (Except.ok (ascii "AEA1" ++ putUint32 1 ++ putUint32 6 ++ putUint32 9 ++ ascii "k\x00www")) :=
  Info_reads_within_region _ _ (by decide) (by decide) (by decide)

/-- C10: on a file of at least 12 bytes with magic "AEA1", `Info` returns an
error exactly when, reading the region (the first `hdr.Length` bytes after the
header, cut short by the end of the file) entry by entry, a length field is
expected where between 1 and 3 bytes remain; the error is then
`io.ErrUnexpectedEOF`.  In every other case, a declared length below 4 or
beyond the bytes that remain included, `Info` returns a map and no error. -/
theorem Info_error_iff (file : List Byte) (hlen : 12 ≤ file.length)
    (hmagic : file.take 4 = magicAEA1) :
    ((∃ e, Info (Except.ok file) = some (Except.error e)) ↔ ShortField (region file)) ∧
    (ShortField (region file) →
      Info (Except.ok file) = some (Except.error Error.ErrUnexpectedEOF)) ∧
    (¬ ShortField (region file) → ∃ md, Info (Except.ok file) = some (Except.ok md)) := by
  have hreg : (region file).length ≤ hdrLength file := by
    unfold region
    rw [List.length_take]
    omega
  obtain ⟨h1, h2⟩ := scan_result (hdrLength file + 1) (region file) (hdrLength file) []
    hreg (by omega)
  rw [Info_eq_scan file hlen, if_neg (by simp [hmagic])]
  refine ⟨⟨?_, fun h => ⟨_, h1 h⟩⟩, h1, h2⟩
  rintro ⟨e, he⟩
  by_contra hn
  obtain ⟨md, hmd⟩ := h2 hn
  rw [hmd] at he
  cases he

theorem Info_error_iff_witness :
    ((∃ e, Info (Except.ok (ascii "AEA1" ++ putUint32 1 ++ putUint32 9
        ++ serialiseEntry (ascii "k", ascii "v") ++ ascii "zz")) = some (Except.error e))
      ↔ ShortField (region (ascii "AEA1" ++ putUint32 1 ++ putUint32 9
        ++ serialiseEntry (ascii "k", ascii "v") ++ ascii "zz"))) ∧
    (ShortField (region (ascii "AEA1" ++ putUint32 1 ++ putUint32 9
        ++ serialiseEntry (ascii "k", ascii "v") ++ ascii "zz")) →
      Info (Except.ok (ascii "AEA1" ++ putUint32 1 ++ putUint32 9
        ++ serialiseEntry (ascii "k", ascii "v") ++ ascii "zz"))
        = some (Except.error Error.ErrUnexpectedEOF)) ∧
    (¬ ShortField (region (ascii "AEA1" ++ putUint32 1 ++ putUint32 9
        ++ serialiseEntry (ascii "k", ascii "v") ++ ascii "zz")) →
      ∃ md, Info (Except.ok (ascii "AEA1" ++ putUint32 1 ++ putUint32 9
        ++ serialiseEntry (ascii "k", ascii "v") ++ ascii "zz")) = some (Except.ok md)) :=
  Info_error_iff _ (by decide) (by decide)

/-! ## Claims on the key resolver -/

theorem rangeKeys_some (fold : List Byte → List Byte → Bool) (base : List Byte) (keys : Keys)
    (h : ∃ kv ∈ keys, fold kv.1 base = true) :
    ∃ k v, rangeKeys fold base keys = some (k, v) ∧ (k, v) ∈ keys ∧ fold k base = true := by
  induction keys with
  | nil => obtain ⟨kv, hkv, _⟩ := h; cases hkv
  | cons a keys ih =>
    obtain ⟨k, v⟩ := a
    by_cases hf : fold k base = true
    · exact ⟨k, v, by simp [rangeKeys, hf], List.mem_cons_self _ _, hf⟩
    · obtain ⟨kv, hkv, hfold⟩ := h
      have hrest : ∃ kv ∈ keys, fold kv.1 base = true := by
        rcases List.mem_cons.mp hkv with heq | hmem
        · subst heq; exact absurd hfold hf
        · exact ⟨kv, hmem, hfold⟩
      obtain ⟨k', v', h1, h2, h3⟩ := ih hrest
      exact ⟨k', v', by simp [rangeKeys, hf, h1], List.mem_cons_of_mem _ h2, h3⟩

theorem rangeKeys_none (fold : List Byte → List Byte → Bool) (base : List Byte) (keys : Keys)
    (h : ∀ kv ∈ keys, fold kv.1 base = false) : rangeKeys fold base keys = none := by
  induction keys with
  | nil => rfl
  | cons a keys ih =>
    obtain ⟨k, v⟩ := a
    have hk : fold k base = false := h (k, v) (List.mem_cons_self _ _)
    simp [rangeKeys, hk, ih (fun kv hkv => h kv (List.mem_cons_of_mem _ hkv))]

/-- C5: with override bytes (a non-empty byte sequence) `GetPrivateKey`
returns without error, for every metadata map, the one-entry map from
"com.apple.wkms.fcs-key-url" to the override bytes unchanged, and it neither
loads the key database nor sends an HTTP request. -/
theorem GetPrivateKey_override (w : Env) (md : Metadata) (data : List Byte) (h : data ≠ []) :
    Metadata.GetPrivateKey w md data = (Except.ok [(fcsKeyURL, data)], []) := by
  have hpos : 0 < data.length := List.length_pos.mpr h
  simp [Metadata.GetPrivateKey, hpos]

theorem GetPrivateKey_override_witness :
    Metadata.GetPrivateKey (sampleEnv (Except.error (Error.other 7))) [] (ascii "PEM")
      = (Except.ok [(fcsKeyURL, ascii "PEM")], []) :=
  GetPrivateKey_override _ _ _ (by decide)

/-- C6: with no override bytes, a key URL in the metadata that parses, and a
key database that loads and holds a key equal under `strings.EqualFold` to
the final path segment of the URL, `GetPrivateKey` returns without error a
one-entry map: its key is a key of the database that folds to the segment,
its value the bytes stored under that key; no HTTP request is sent. -/
theorem GetPrivateKey_local_first (w : Env) (md : Metadata) (url : List Byte) (keys : Keys)
    (u : URL) (hurl : Metadata.get md fcsKeyURL = some url)
    (hkeys : getKeys w = Except.ok keys) (hparse : w.urlParse url = Except.ok u)
    (hmatch : ∃ kv ∈ keys, w.EqualFold kv.1 (pathBase u.Path) = true) :
    ∃ k v, (Metadata.GetPrivateKey w md []).1 = Except.ok [(k, v)] ∧ (k, v) ∈ keys ∧
      w.EqualFold k (pathBase u.Path) = true ∧
      ∀ x, Event.httpGet x ∉ (Metadata.GetPrivateKey w md []).2 := by
  obtain ⟨k, v, hr, hmem, hfold⟩ := rangeKeys_some w.EqualFold (pathBase u.Path) keys hmatch
  refine ⟨k, v, ?_, hmem, hfold, ?_⟩
  · simp [Metadata.GetPrivateKey, hurl, hkeys, hparse, hr]
  · intro x
    simp [Metadata.GetPrivateKey, hurl, hkeys, hparse, hr]

theorem GetPrivateKey_local_first_witness :
    ∃ k v, (Metadata.GetPrivateKey (sampleEnv (Except.error (Error.other 7)))
        [(fcsKeyURL, ascii "https://h/keys/abc.p8")] []).1 = Except.ok [(k, v)] ∧
      (k, v) ∈ sampleKeys ∧
      asciiEqualFold k (pathBase (ascii "/keys/abc.p8")) = true ∧
      ∀ x, Event.httpGet x ∉ (Metadata.GetPrivateKey (sampleEnv (Except.error (Error.other 7)))
        [(fcsKeyURL, ascii "https://h/keys/abc.p8")] []).2 :=
  GetPrivateKey_local_first (sampleEnv (Except.error (Error.other 7)))
    [(fcsKeyURL, ascii "https://h/keys/abc.p8")] (ascii "https://h/keys/abc.p8") sampleKeys
    { Path := ascii "/keys/abc.p8" } (by decide) (by decide) (by decide)
    ⟨(ascii "ABC.p8", ascii "KEY-1"), by decide, by decide⟩

/-- C7, the claim refuted: on the remote path a response with status 404 is
not an error, its body is returned as the private key material. -/
theorem GetPrivateKey_uses_body_of_404 :
    Metadata.GetPrivateKey
        (sampleEnv (Except.ok { StatusCode := 404, Body := Except.ok (ascii "404 page") }))
        [(fcsKeyURL, ascii "https://h/keys/new.p8")] []
      = (Except.ok [(ascii "new.p8", ascii "404 page")],
         [Event.getKeys, Event.httpGet (ascii "https://h/keys/new.p8")]) := by decide

/-- C7, amended: on the remote path (no override bytes, key URL present, key
database not loaded or without a matching key) `GetPrivateKey` fails, with
no key material, when the HTTP GET fails at the transport level and when the
body cannot be read; the status code of a response is not looked at, and the
body of a response that was read is the key material, under the final path
segment of the URL. -/
theorem GetPrivateKey_remote (w : Env) (md : Metadata) (url : List Byte)
    (hurl : Metadata.get md fcsKeyURL = some url)
    (hremote : (∃ e, getKeys w = Except.error e) ∨
      ∃ keys u, getKeys w = Except.ok keys ∧ w.urlParse url = Except.ok u ∧
        ∀ kv ∈ keys, w.EqualFold kv.1 (pathBase u.Path) = false) :
    (∀ e, w.httpGet url = Except.error e →
      (Metadata.GetPrivateKey w md []).1 = Except.error e) ∧
    (∀ resp e, w.httpGet url = Except.ok resp → resp.Body = Except.error e →
      (Metadata.GetPrivateKey w md []).1 = Except.error e) ∧
    (∀ resp body u, w.httpGet url = Except.ok resp → resp.Body = Except.ok body →
      w.urlParse url = Except.ok u →
      (Metadata.GetPrivateKey w md []).1 = Except.ok [(pathBase u.Path, body)]) := by
  rcases hremote with ⟨e0, hk⟩ | ⟨keys, u0, hk, hp, hno⟩
  · refine ⟨?_, ?_, ?_⟩
    · intro e he
      simp [Metadata.GetPrivateKey, hurl, hk, he]
    · intro resp e he hb
      simp [Metadata.GetPrivateKey, hurl, hk, he, hb]
    · intro resp body u he hb hu
      simp [Metadata.GetPrivateKey, hurl, hk, he, hb, hu]
  · have hr := rangeKeys_none w.EqualFold (pathBase u0.Path) keys hno
    refine ⟨?_, ?_, ?_⟩
    · intro e he
      simp [Metadata.GetPrivateKey, hurl, hk, hp, hr, he]
    · intro resp e he hb
      simp [Metadata.GetPrivateKey, hurl, hk, hp, hr, he, hb]
    · intro resp body u he hb hu
      rw [hp] at hu
      cases hu
      simp [Metadata.GetPrivateKey, hurl, hk, hp, hr, he, hb]

theorem GetPrivateKey_remote_witness :
    (∀ e, (sampleEnv (Except.ok { StatusCode := 500, Body := Except.ok (ascii "oops") })).httpGet
        (ascii "https://h/keys/new.p8") = Except.error e →
      (Metadata.GetPrivateKey
        (sampleEnv (Except.ok { StatusCode := 500, Body := Except.ok (ascii "oops") }))
        [(fcsKeyURL, ascii "https://h/keys/new.p8")] []).1 = Except.error e) ∧
    (∀ resp e, (sampleEnv (Except.ok { StatusCode := 500, Body := Except.ok (ascii "oops") })).httpGet
        (ascii "https://h/keys/new.p8") = Except.ok resp → resp.Body = Except.error e →
      (Metadata.GetPrivateKey
        (sampleEnv (Except.ok { StatusCode := 500, Body := Except.ok (ascii "oops") }))
        [(fcsKeyURL, ascii "https://h/keys/new.p8")] []).1 = Except.error e) ∧
    (∀ resp body u, (sampleEnv (Except.ok { StatusCode := 500, Body := Except.ok (ascii "oops") })).httpGet
        (ascii "https://h/keys/new.p8") = Except.ok resp → resp.Body = Except.ok body →
      (sampleEnv (Except.ok { StatusCode := 500, Body := Except.ok (ascii "oops") })).urlParse
        (ascii "https://h/keys/new.p8") = Except.ok u →
      (Metadata.GetPrivateKey
        (sampleEnv (Except.ok { StatusCode := 500, Body := Except.ok (ascii "oops") }))
        [(fcsKeyURL, ascii "https://h/keys/new.p8")] []).1
        = Except.ok [(pathBase u.Path, body)]) :=
  GetPrivateKey_remote (sampleEnv (Except.ok { StatusCode := 500, Body := Except.ok (ascii "oops") }))
    [(fcsKeyURL, ascii "https://h/keys/new.p8")] (ascii "https://h/keys/new.p8") (by decide)
    (Or.inr ⟨sampleKeys, { Path := ascii "/keys/new.p8" }, by decide, by decide, by decide⟩)

/-! ## Claims on the private key decoding -/

theorem bigIntBytesAux_length (fuel : Nat) :
    ∀ (n : Nat) (acc : List Byte) (j : Nat), n < 256 ^ j →
      (bigIntBytesAux fuel n acc).length ≤ acc.length + j := by
  induction fuel with
  | zero => intro n acc j _; simp [bigIntBytesAux]
  | succ fuel ih =>
    intro n acc j hn
    rw [bigIntBytesAux]
    by_cases h0 : n = 0
    · simp [h0]
    · rw [if_neg h0]
      cases j with
      | zero => simp at hn; exact absurd hn h0
      | succ j =>
        have hdiv : n / 256 < 256 ^ j := by
          rw [Nat.div_lt_iff_lt_mul (by norm_num)]
          rw [pow_succ] at hn
          exact hn
        have := ih (n / 256) (Fin.ofNat n :: acc) j hdiv
        rw [List.length_cons] at this
        omega

/-- The scalar comes back without its leading zero bytes: below `2 ^ 248`
it has fewer than 32 bytes. -/
theorem bigIntBytes_short (D : Nat) (h : D < 2 ^ 248) : (bigIntBytes D).length < 32 := by
  have h' : D < 256 ^ 31 := by
    have : (256 : Nat) ^ 31 = 2 ^ 248 := by norm_num
    omega
  have := bigIntBytesAux_length D D [] 31 h'
  simp only [List.length_nil, Nat.zero_add] at this
  unfold bigIntBytes
  omega

/-- C8, the claim refuted: an EC key on P-384 is not rejected, its scalar is
returned; and a material without PEM block ends in a panic, not in an error. -/
theorem UnmarshalBinaryPrivateKey_not_rejected :
    PrivateKey.UnmarshalBinaryPrivateKey sampleCrypto [0x2d, 0x02, 0x02, 0x05]
      = Outcome.ok [0x05] ∧
    PrivateKey.UnmarshalBinaryPrivateKey sampleCrypto (ascii "no armour") = Outcome.panic := by
  decide

/-- C8, amended: `UnmarshalBinaryPrivateKey` returns an error, and no scalar,
for a material whose PEM block does not parse as PKCS8 and for a PKCS8 key
that is not an EC key; the curve of an EC key is not looked at, the scalar
of an EC key on any curve is returned. -/
theorem UnmarshalBinaryPrivateKey_rejects (c : Crypto) (k der : List Byte)
    (hpem : c.pemDecode k = some der) :
    (∀ e, c.parsePKCS8PrivateKey der = Except.error e →
      PrivateKey.UnmarshalBinaryPrivateKey c k = Outcome.error Error.parseP8) ∧
    (∀ key, c.parsePKCS8PrivateKey der = Except.ok key →
      (∀ curve D, key ≠ ParsedKey.ecdsa curve D) →
      PrivateKey.UnmarshalBinaryPrivateKey c k = Outcome.error Error.notECDSA) ∧
    (∀ curve D, c.parsePKCS8PrivateKey der = Except.ok (ParsedKey.ecdsa curve D) →
      PrivateKey.UnmarshalBinaryPrivateKey c k = Outcome.ok (bigIntBytes D)) := by
  refine ⟨?_, ?_, ?_⟩
  · intro e he
    simp [PrivateKey.UnmarshalBinaryPrivateKey, hpem, he]
  · intro key hkey hnot
    cases key with
    | ecdsa curve D => exact absurd rfl (hnot curve D)
    | rsa => simp [PrivateKey.UnmarshalBinaryPrivateKey, hpem, hkey]
    | ed25519 => simp [PrivateKey.UnmarshalBinaryPrivateKey, hpem, hkey]
    | ecdh => simp [PrivateKey.UnmarshalBinaryPrivateKey, hpem, hkey]
  · intro curve D hkey
    simp [PrivateKey.UnmarshalBinaryPrivateKey, hpem, hkey]

theorem UnmarshalBinaryPrivateKey_rejects_witness :
    (∀ e, sampleCrypto.parsePKCS8PrivateKey [0x01] = Except.error e →
      PrivateKey.UnmarshalBinaryPrivateKey sampleCrypto [0x2d, 0x01]
        = Outcome.error Error.parseP8) ∧
    (∀ key, sampleCrypto.parsePKCS8PrivateKey [0x01] = Except.ok key →
      (∀ curve D, key ≠ ParsedKey.ecdsa curve D) →
      PrivateKey.UnmarshalBinaryPrivateKey sampleCrypto [0x2d, 0x01]
        = Outcome.error Error.notECDSA) ∧
    (∀ curve D, sampleCrypto.parsePKCS8PrivateKey [0x01]
        = Except.ok (ParsedKey.ecdsa curve D) →
      PrivateKey.UnmarshalBinaryPrivateKey sampleCrypto [0x2d, 0x01]
        = Outcome.ok (bigIntBytes D)) :=
  UnmarshalBinaryPrivateKey_rejects sampleCrypto [0x2d, 0x01] [0x01] (by decide)

/-- C9, the failing input: for the P-256 key with scalar 1 the method returns
the single byte 0x01, not the 32-byte big-endian encoding of the scalar. -/
theorem UnmarshalBinaryPrivateKey_drops_leading_zeros :
    PrivateKey.UnmarshalBinaryPrivateKey sampleCrypto [0x2d, 0x02, 0x01, 0x01]
      = Outcome.ok [0x01] ∧
    ([0x01] : List Byte).length ≠ 32 := by
  decide

/-- The scalar of a P-256 key below `2 ^ 248` is returned in fewer than 32 bytes. -/
theorem UnmarshalBinaryPrivateKey_short_scalar (c : Crypto) (k der : List Byte) (D : Nat)
    (hpem : c.pemDecode k = some der)
    (hkey : c.parsePKCS8PrivateKey der = Except.ok (ParsedKey.ecdsa Curve.P256 D))
    (hD : D < 2 ^ 248) :
    ∃ bs, PrivateKey.UnmarshalBinaryPrivateKey c k = Outcome.ok bs ∧ bs.length < 32 :=
  ⟨bigIntBytes D, by simp [PrivateKey.UnmarshalBinaryPrivateKey, hpem, hkey],
    bigIntBytes_short D hD⟩

end AEA
